import Mathlib

/-!
Verification of the depth ingestion and reconciliation pipeline of the mdc
market-data server.  The definitions below are a shallow embedding of the
Rust sources `src/mdc_server/order_book.rs`, `src/mdc_server/book_processor.rs`
and `src/mdc_server/depth_event_dispatcher.rs`:

* `f64` prices and quantities are modelled by `F64`, which distinguishes the
  bit patterns the code can observe: NaN, the two infinities, negative zero,
  and finite values (as rationals; every finite binary64 value is rational).
  IEEE comparison (`partial_cmp`, `==`) is modelled separately from bit-level
  identity (structural equality of `F64`), because the two differ exactly on
  `-0.0 == 0.0` (true) and `NaN == NaN` (false).
* `BTreeMap<PriceKey, f64>` is modelled as an association list whose lookup,
  insertion and removal identify keys through `PriceKey.cmp` returning `eq`,
  as the `BTreeMap` search does.  Entry order inside the map is abstracted
  away: no verified statement concerns iteration order of a book side.
* `u64` sequence numbers are modelled as `Nat`.  The only arithmetic the
  dispatcher performs is `+ 1` on `last_processed_update_id`; the result is
  only compared against buffered keys after those keys passed the strict
  `key > last_processed_update_id` test, which is unsatisfiable when
  `last_processed_update_id = u64::MAX`, so wrap-around is unreachable and
  `Nat` arithmetic is observationally faithful.
* Channels are modelled by returning the list of events a component sends,
  in order; the async scaffolding (tokio tasks, logging) has no effect on
  the data flow and is dropped.
-/

/-- Model of an IEEE-754 binary64 bit pattern as the Rust code observes one:
NaN (all NaN payloads behave identically under the comparisons the code
performs), the infinities, negative zero, and finite values.  `num 0` is the
`+0.0` bit pattern; `negZero` is the `-0.0` bit pattern. -/
inductive F64 where
  | nan : F64
  | negInf : F64
  | negZero : F64
  | num : ℚ → F64
  | inf : F64
deriving DecidableEq

/-- Comparison class of a non-NaN value: `-1` for `-inf`, `1` for `+inf`,
`0` for every finite value (including both zeros). -/
def F64.rankCls : F64 → Int
  | .negInf => -1
  | .inf => 1
  | _ => 0

/-- Numeric value of a finite pattern; `0` for the non-finite classes, whose
ordering is already decided by `rankCls`. -/
def F64.rankVal : F64 → ℚ
  | .num q => q
  | _ => 0

/-- `f64::partial_cmp`: `none` exactly when a NaN is involved; otherwise the
IEEE total order on the remaining values, under which `-0.0` and `+0.0`
compare `Equal`. -/
def F64.pcmp : F64 → F64 → Option Ordering
  | .nan, _ => none
  | _, .nan => none
  | a, b =>
    some (if a.rankCls < b.rankCls then Ordering.lt
      else if b.rankCls < a.rankCls then Ordering.gt
      else if a.rankVal < b.rankVal then Ordering.lt
      else if b.rankVal < a.rankVal then Ordering.gt
      else Ordering.eq)

/-- `f64::eq` (the `==` the Rust code applies to quantities): IEEE equality,
false on NaN operands, true on `-0.0 == 0.0`. -/
def F64.ieeeEq (a b : F64) : Bool := a.pcmp b == some Ordering.eq

/-- `0.0 < a` in IEEE terms: the strict positivity every live book level is
expected to satisfy.  False on NaN, `-0.0`, `0.0` and negative values. -/
def F64.isPos (a : F64) : Bool := (F64.num 0).pcmp a == some Ordering.lt

/-- `PriceKey` from `order_book.rs`: a price level tagged with its side. -/
inductive PriceKey where
  | Bid : F64 → PriceKey
  | Ask : F64 → PriceKey
deriving DecidableEq

/-- `PriceKey::price`: the underlying price regardless of side. -/
def PriceKey.price : PriceKey → F64
  | .Bid p => p
  | .Ask p => p

def PriceKey.isBid : PriceKey → Bool
  | .Bid _ => true
  | .Ask _ => false

/-- `PartialOrd for PriceKey`: bids compare descending by price, asks
ascending, and a bid is never comparable with an ask (`None`). -/
def PriceKey.pcmp : PriceKey → PriceKey → Option Ordering
  | .Bid a, .Bid b => F64.pcmp b a
  | .Ask a, .Ask b => F64.pcmp a b
  | _, _ => none

/-- `Ord for PriceKey`: `self.partial_cmp(other).unwrap_or(Ordering::Equal)`. -/
def PriceKey.cmp (a b : PriceKey) : Ordering := (a.pcmp b).getD Ordering.eq

/-- One side of the book: `BTreeMap<PriceKey, f64>` as an association list.
Key identity is `PriceKey.cmp _ _ = eq`, the criterion the `BTreeMap` search
uses. -/
abbrev BookMap := List (PriceKey × F64)

/-- `BTreeMap::get`: the value stored at the (cmp-equal) key, if any. -/
def bmFind : BookMap → PriceKey → Option F64
  | [], _ => none
  | (k, v) :: rest, key =>
    if PriceKey.cmp key k = Ordering.eq then some v else bmFind rest key

/-- `BTreeMap::insert`: when a cmp-equal key is present its value is replaced
and the stored key is kept (the `BTreeMap` contract: "the key is not
updated"); otherwise the binding is added. -/
def bmInsert : BookMap → PriceKey → F64 → BookMap
  | [], key, v => [(key, v)]
  | (k, w) :: rest, key, v =>
    if PriceKey.cmp key k = Ordering.eq then (k, v) :: rest
    else (k, w) :: bmInsert rest key v

/-- `BTreeMap::remove`: drops the binding at the cmp-equal key, if any. -/
def bmRemove : BookMap → PriceKey → BookMap
  | [], _ => []
  | (k, w) :: rest, key =>
    if PriceKey.cmp key k = Ordering.eq then rest
    else (k, w) :: bmRemove rest key

/-- `DepthEntry` from `models.rs`: one (price, quantity) pair. -/
structure DepthEntry where
  price : F64
  quantity : F64
deriving DecidableEq

/-- `DepthSnapshot` from `models.rs`. -/
structure DepthSnapshot where
  last_update_id : Nat
  bids : List DepthEntry
  asks : List DepthEntry
deriving DecidableEq

/-- `DepthUpdate` from `models.rs`.  The `event_type`, `event_time` and
`symbol` fields are carried by the Rust struct but never read by the core
pipeline, so they are omitted here. -/
structure DepthUpdate where
  first_update_id : Nat
  last_update_id : Nat
  bids : List DepthEntry
  asks : List DepthEntry
deriving DecidableEq

/-- `MarketEvent` from `models.rs`.  The trade and ticker payloads are never
inspected by the dispatcher or the book processor (both log and discard those
variants), so they are modelled without payload. -/
inductive MarketEvent where
  | snapshot : DepthSnapshot → MarketEvent
  | update : DepthUpdate → MarketEvent
  | trade : MarketEvent
  | price : MarketEvent
deriving DecidableEq

/-- `OrderBook` from `order_book.rs`: the two side maps. -/
structure OrderBook where
  bids : BookMap
  asks : BookMap
deriving DecidableEq

/-- `OrderBook::bid`. -/
def OrderBook.bid (p : F64) : PriceKey := PriceKey.Bid p

/-- `OrderBook::ask`. -/
def OrderBook.ask (p : F64) : PriceKey := PriceKey.Ask p

/-- `OrderBook::new`: both maps are built by inserting the snapshot entries
in list order, as-is (no quantity filtering). -/
def OrderBook.new (snapshot : DepthSnapshot) : OrderBook :=
  { bids := snapshot.bids.foldl (fun m e => bmInsert m (PriceKey.Bid e.price) e.quantity) []
    asks := snapshot.asks.foldl (fun m e => bmInsert m (PriceKey.Ask e.price) e.quantity) [] }

/-- `OrderBook::apply_update`: select the side map from the key's variant;
if `quantity == 0.0` (IEEE comparison) remove the key, else insert. -/
def OrderBook.apply_update (b : OrderBook) (price_key : PriceKey) (quantity : F64) : OrderBook :=
  if F64.ieeeEq quantity (F64.num 0) then
    match price_key with
    | PriceKey.Bid _ => { b with bids := bmRemove b.bids price_key }
    | PriceKey.Ask _ => { b with asks := bmRemove b.asks price_key }
  else
    match price_key with
    | PriceKey.Bid _ => { b with bids := bmInsert b.bids price_key quantity }
    | PriceKey.Ask _ => { b with asks := bmInsert b.asks price_key quantity }

/-- The side map `apply_update` selects for a key: `bids` for a bid key,
`asks` for an ask key. -/
def OrderBook.sideOf (b : OrderBook) (k : PriceKey) : BookMap :=
  match k with
  | PriceKey.Bid _ => b.bids
  | PriceKey.Ask _ => b.asks

/-- Every stored quantity of the book is strictly positive. -/
def OrderBook.allPosB (b : OrderBook) : Bool :=
  b.bids.all (fun e => F64.isPos e.2) && b.asks.all (fun e => F64.isPos e.2)

/-- Every key of `bids` is a `Bid` key and every key of `asks` an `Ask` key. -/
def OrderBook.sidesOkB (b : OrderBook) : Bool :=
  b.bids.all (fun e => e.1.isBid) && b.asks.all (fun e => !e.1.isBid)

/-- Well-formedness of a book as the reachable states satisfy it: keys live
in the map of their own side, and within one map no two stored keys compare
`eq` (the `BTreeMap` keeps distinct keys distinct under its order). -/
def OrderBook.Wf (b : OrderBook) : Prop :=
  b.sidesOkB = true
    ∧ b.bids.Pairwise (fun x y => PriceKey.cmp x.1 y.1 ≠ Ordering.eq)
    ∧ b.asks.Pairwise (fun x y => PriceKey.cmp x.1 y.1 ≠ Ordering.eq)

/-- `BookProcessor::process_update` acting on the held book: every bid delta
is applied first, in list order, then every ask delta, in list order. -/
def BookProcessor.process_update (order_book : OrderBook) (update : DepthUpdate) : OrderBook :=
  let afterBids :=
    update.bids.foldl (fun b e => b.apply_update (OrderBook.bid e.price) e.quantity) order_book
  update.asks.foldl (fun b e => b.apply_update (OrderBook.ask e.price) e.quantity) afterBids

/-- Outcome of a `BookProcessor::run` over a finite input: either the loop
ends normally with the final held book and the emitted states (in emission
order), or a `process_update` on an uninitialized processor panicked, ending
the process after the listed emissions. -/
inductive BPRun where
  | ok : Option OrderBook → List OrderBook → BPRun
  | fatal : List OrderBook → BPRun
deriving DecidableEq

/-- Prepend one emitted state to the emissions of a run outcome. -/
def BPRun.emit (b : OrderBook) : BPRun → BPRun
  | .ok st l => .ok st (b :: l)
  | .fatal l => .fatal (b :: l)

/-- The emitted states of a run outcome. -/
def BPRun.emitted : BPRun → List OrderBook
  | .ok _ l => l
  | .fatal l => l

/-- `BookProcessor::run` from a held book (`none` = uninitialized) over the
events received on the input channel.  A snapshot replaces the book and the
new state is emitted; an update is applied to the held book (panicking if
there is none — the `expect` in `process_update`) and the new state is
emitted; trade and ticker events are logged and discarded. -/
def BookProcessor.run : Option OrderBook → List MarketEvent → BPRun
  | st, [] => BPRun.ok st []
  | _, MarketEvent.snapshot s :: rest =>
      (BookProcessor.run (some (OrderBook.new s)) rest).emit (OrderBook.new s)
  | st, MarketEvent.update u :: rest =>
      match st with
      | none => BPRun.fatal []
      | some b =>
          (BookProcessor.run (some (BookProcessor.process_update b u)) rest).emit
            (BookProcessor.process_update b u)
  | st, _ :: rest => BookProcessor.run st rest

/-- The input stream contains a depth update that precedes every depth
snapshot (the situation that makes the uninitialized processor panic). -/
def updateBeforeFirstSnapshot : List MarketEvent → Bool
  | [] => false
  | MarketEvent.snapshot _ :: _ => false
  | MarketEvent.update _ :: _ => true
  | _ :: rest => updateBeforeFirstSnapshot rest

/-- The deltas of an update as one tagged list: all bid deltas, in list
order, followed by all ask deltas, in list order. -/
def deltaList (u : DepthUpdate) : List (PriceKey × F64) :=
  u.bids.map (fun e => (PriceKey.Bid e.price, e.quantity))
    ++ u.asks.map (fun e => (PriceKey.Ask e.price, e.quantity))

/-- Sequential application of tagged deltas to a book. -/
def applyDeltas (b : OrderBook) (l : List (PriceKey × F64)) : OrderBook :=
  l.foldl (fun bk d => bk.apply_update d.1 d.2) b

/-- The event is a depth snapshot or a depth update. -/
def isDepthEvent : MarketEvent → Bool
  | MarketEvent.snapshot _ => true
  | MarketEvent.update _ => true
  | _ => false

/-- Every entry of the snapshot carries a strictly positive quantity. -/
def goodSnapshot (s : DepthSnapshot) : Bool :=
  s.bids.all (fun e => F64.isPos e.quantity) && s.asks.all (fun e => F64.isPos e.quantity)

/-- Every delta of the update carries a strictly positive or IEEE-zero
quantity. -/
def goodUpdate (u : DepthUpdate) : Bool :=
  (u.bids ++ u.asks).all
    (fun e => F64.isPos e.quantity || F64.ieeeEq e.quantity (F64.num 0))

/-- Every depth event of the stream satisfies its quantity condition. -/
def goodEvents (evs : List MarketEvent) : Bool :=
  evs.all (fun ev =>
    match ev with
    | MarketEvent.snapshot s => goodSnapshot s
    | MarketEvent.update u => goodUpdate u
    | _ => true)

/-- `DepthEventDispatcher` state: the highest forwarded sequence number (if
any event was forwarded yet) and the pending-update buffer.  The Rust buffer
is a `BTreeMap<u64, DepthUpdate>` whose only insertion keys each update by
its own `last_update_id`; it is modelled as the list of its values in
ascending key order. -/
structure DepthEventDispatcher where
  last_processed_update_id : Option Nat
  buffer : List DepthUpdate
deriving DecidableEq

/-- `DepthEventDispatcher::new` (channel handles dropped). -/
def DepthEventDispatcher.new : DepthEventDispatcher :=
  { last_processed_update_id := none, buffer := [] }

/-- `BTreeMap::insert` keyed by `last_update_id` on the ascending value
list: an update with an already-present key overwrites that entry. -/
def bufferInsert (u : DepthUpdate) : List DepthUpdate → List DepthUpdate
  | [] => [u]
  | v :: rest =>
    if u.last_update_id < v.last_update_id then u :: v :: rest
    else if u.last_update_id = v.last_update_id then u :: rest
    else v :: bufferInsert u rest

/-- `DepthEventDispatcher::process_update`: always buffer, forwarding
nothing. -/
def DepthEventDispatcher.process_update (d : DepthEventDispatcher) (update : DepthUpdate) :
    DepthEventDispatcher :=
  { d with buffer := bufferInsert update d.buffer }

/-- `DepthEventDispatcher::process_snapshot`: forward the first snapshot and
adopt its id; afterwards drop a snapshot whose id is not strictly newer, and
forward (adopting its id) one that is.  The buffer is untouched on every
path. -/
def DepthEventDispatcher.process_snapshot (d : DepthEventDispatcher) (snapshot : DepthSnapshot) :
    DepthEventDispatcher × List MarketEvent :=
  match d.last_processed_update_id with
  | none =>
      ({ d with last_processed_update_id := some snapshot.last_update_id },
        [MarketEvent.snapshot snapshot])
  | some l =>
      if snapshot.last_update_id ≤ l then (d, [])
      else
        ({ d with last_processed_update_id := some snapshot.last_update_id },
          [MarketEvent.snapshot snapshot])

/-- The scan of `process_buffer` over the ascending buffer entries.
`l0` is the `last_processed_update_id` captured at entry (the Rust local the
stale test always uses), `expected` the running `expected_first_update_id`,
`lastP` the running `last_processed_update_id`.  Returns the forwarded
updates in order, the entries left in the buffer, and the final
`last_processed_update_id`.  An entry with key at most `l0` is removed as
stale; an entry passing `first_update_id ≤ expected ∧ expected <
last_update_id` is forwarded and removed; the first other entry stops the
scan, leaving itself and everything after it buffered. -/
def drainLoop (l0 : Nat) : Nat → Nat → List DepthUpdate →
    List DepthUpdate × List DepthUpdate × Nat
  | _, lastP, [] => ([], [], lastP)
  | expected, lastP, du :: rest =>
    if du.last_update_id ≤ l0 then drainLoop l0 expected lastP rest
    else if du.first_update_id ≤ expected ∧ expected < du.last_update_id then
      let r := drainLoop l0 (du.last_update_id + 1) du.last_update_id rest
      (du :: r.1, r.2.1, r.2.2)
    else ([], du :: rest, lastP)

/-- `DepthEventDispatcher::process_buffer`: without an adopted snapshot id
nothing happens; otherwise scan the buffer as `drainLoop` does. -/
def DepthEventDispatcher.process_buffer (d : DepthEventDispatcher) :
    DepthEventDispatcher × List DepthUpdate :=
  match d.last_processed_update_id with
  | none => (d, [])
  | some l0 =>
      let r := drainLoop l0 (l0 + 1) l0 d.buffer
      ({ last_processed_update_id := some r.2.2, buffer := r.2.1 }, r.1)

/-- One iteration of `DepthEventDispatcher::run`: an update is buffered and
the buffer drained; a snapshot is processed and the buffer drained; any
other event is logged and discarded.  Returns the new state and the events
sent to the output channel, in order. -/
def DepthEventDispatcher.step (d : DepthEventDispatcher) :
    MarketEvent → DepthEventDispatcher × List MarketEvent
  | MarketEvent.update u =>
      let r := (d.process_update u).process_buffer
      (r.1, r.2.map MarketEvent.update)
  | MarketEvent.snapshot s =>
      let r1 := d.process_snapshot s
      let r2 := r1.1.process_buffer
      (r2.1, r1.2 ++ r2.2.map MarketEvent.update)
  | _ => (d, [])

/-- `DepthEventDispatcher::run` over a finite input stream: the final state
and everything forwarded, in order. -/
def DepthEventDispatcher.run : DepthEventDispatcher → List MarketEvent →
    DepthEventDispatcher × List MarketEvent
  | d, [] => (d, [])
  | d, ev :: rest =>
      let r1 := d.step ev
      let r2 := r1.1.run rest
      (r2.1, r1.2 ++ r2.2)

/-- The sequence number an event carries: `last_update_id` for snapshots and
updates, none for the other variants. -/
def eventSeq : MarketEvent → Option Nat
  | MarketEvent.snapshot s => some s.last_update_id
  | MarketEvent.update u => some u.last_update_id
  | _ => none

/-- The value `last_processed_update_id` holds after the given forwarded
events: the sequence number of the last one carrying a sequence number. -/
def trackSeq : Option Nat → List MarketEvent → Option Nat
  | l, [] => l
  | l, ev :: rest =>
    match eventSeq ev with
    | some s => trackSeq (some s) rest
    | none => trackSeq l rest

/-- The sequence numbers of a forwarded stream, in order. -/
def seqsOf (evs : List MarketEvent) : List Nat := evs.filterMap eventSeq

/-- The dispatcher's output contract, relative to the sequence number of the
last previously forwarded event (`none` before anything was forwarded):
every forwarded snapshot is strictly newer than that number, every forwarded
update `u` satisfies `first_update_id ≤ L + 1 < last_update_id` against the
number `L` of the event forwarded directly before it, and nothing but depth
events is forwarded. -/
def fwdOk : Option Nat → List MarketEvent → Prop
  | _, [] => True
  | l, MarketEvent.snapshot s :: rest =>
      (∀ x, l = some x → x < s.last_update_id) ∧ fwdOk (some s.last_update_id) rest
  | l, MarketEvent.update u :: rest =>
      (∃ x, l = some x ∧ u.first_update_id ≤ x + 1 ∧ x + 1 < u.last_update_id)
        ∧ fwdOk (some u.last_update_id) rest
  | _, _ :: _ => False

/-- The part of the output contract claimed for forwarded updates alone:
each one satisfies `first_update_id ≤ L + 1 < last_update_id` against the
sequence number `L` of the event forwarded directly before it. -/
def updChainOk : Option Nat → List MarketEvent → Prop
  | _, [] => True
  | _, MarketEvent.snapshot s :: rest => updChainOk (some s.last_update_id) rest
  | l, MarketEvent.update u :: rest =>
      (∃ x, l = some x ∧ u.first_update_id ≤ x + 1 ∧ x + 1 < u.last_update_id)
        ∧ updChainOk (some u.last_update_id) rest
  | l, _ :: rest => updChainOk l rest

/-- The window condition along a list of forwarded updates, starting from a
known last-processed number. -/
def chainFrom : Nat → List DepthUpdate → Prop
  | _, [] => True
  | l, u :: rest =>
      u.first_update_id ≤ l + 1 ∧ l + 1 < u.last_update_id ∧ chainFrom u.last_update_id rest

/-- The last `last_update_id` of a list of updates, with a default. -/
def lastId (d : Nat) (l : List DepthUpdate) : Nat :=
  l.foldl (fun _ u => u.last_update_id) d

lemma lastId_cons (d : Nat) (u : DepthUpdate) (l : List DepthUpdate) :
    lastId d (u :: l) = lastId u.last_update_id l := rfl

/-- The scan only forwards entries that pass the window test against the
running last-processed number, and leaves that number at the last forwarded
update's id. -/
lemma drainLoop_chain (l0 : Nat) (buf : List DepthUpdate) : ∀ lastP : Nat,
    chainFrom lastP (drainLoop l0 (lastP + 1) lastP buf).1 ∧
    (drainLoop l0 (lastP + 1) lastP buf).2.2
      = lastId lastP (drainLoop l0 (lastP + 1) lastP buf).1 := by
  induction buf with
  | nil => intro lastP; simp [drainLoop, chainFrom, lastId]
  | cons du rest ih =>
    intro lastP
    by_cases h1 : du.last_update_id ≤ l0
    · simpa [drainLoop, h1] using ih lastP
    · by_cases h2 : du.first_update_id ≤ lastP + 1 ∧ lastP + 1 < du.last_update_id
      · have h := ih du.last_update_id
        simp only [drainLoop, if_neg h1, if_pos h2]
        exact ⟨⟨h2.1, h2.2, h.1⟩, by simpa [lastId_cons] using h.2⟩
      · simp [drainLoop, h1, h2, chainFrom, lastId]

/-- When the (sorted) buffer holds an entry whose key is exactly
`last_processed + 1`, the scan forwards nothing, keeps that entry, and
leaves `last_processed` unchanged: every earlier entry is stale and the
entry itself fails the strict `expected < last_update_id` test. -/
lemma drainLoop_blocked (l0 : Nat) (buf : List DepthUpdate) (u : DepthUpdate)
    (hmem : u ∈ buf) (hid : u.last_update_id = l0 + 1)
    (hsort : buf.Pairwise (fun a b => a.last_update_id < b.last_update_id)) :
    (drainLoop l0 (l0 + 1) l0 buf).1 = [] ∧
    u ∈ (drainLoop l0 (l0 + 1) l0 buf).2.1 ∧
    (drainLoop l0 (l0 + 1) l0 buf).2.2 = l0 := by
  induction buf with
  | nil => cases hmem
  | cons v rest ih =>
    rcases List.mem_cons.mp hmem with hv | hv
    · subst hv
      have h1 : ¬ u.last_update_id ≤ l0 := by omega
      have h2 : ¬ (u.first_update_id ≤ l0 + 1 ∧ l0 + 1 < u.last_update_id) := by omega
      simp [drainLoop, h1, h2]
    · have hlt : v.last_update_id < u.last_update_id :=
        (List.pairwise_cons.mp hsort).1 u hv
      have h1 : v.last_update_id ≤ l0 := by omega
      have := ih hv (List.pairwise_cons.mp hsort).2
      simpa [drainLoop, h1] using this

/-- Forwarding a chain of updates satisfies the output contract from the
number the chain starts at. -/
lemma chainFrom_fwdOk (fwd : List DepthUpdate) : ∀ l : Nat, chainFrom l fwd →
    fwdOk (some l) (fwd.map MarketEvent.update) := by
  induction fwd with
  | nil => intro l _; trivial
  | cons u rest ih =>
    intro l h
    exact ⟨⟨l, rfl, h.1, h.2.1⟩, ih u.last_update_id h.2.2⟩

lemma trackSeq_map_update (fwd : List DepthUpdate) : ∀ l : Nat,
    trackSeq (some l) (fwd.map MarketEvent.update) = some (lastId l fwd) := by
  induction fwd with
  | nil => intro l; simp [trackSeq, lastId]
  | cons u rest ih =>
    intro l
    simpa [trackSeq, eventSeq, lastId_cons] using ih u.last_update_id

lemma trackSeq_append (xs : List MarketEvent) : ∀ (ys : List MarketEvent) (l : Option Nat),
    trackSeq l (xs ++ ys) = trackSeq (trackSeq l xs) ys := by
  induction xs with
  | nil => intro ys l; rfl
  | cons ev rest ih =>
    intro ys l
    cases ev <;> simp [trackSeq, eventSeq, ih]

lemma fwdOk_append (xs : List MarketEvent) : ∀ (ys : List MarketEvent) (l : Option Nat),
    fwdOk l xs → fwdOk (trackSeq l xs) ys → fwdOk l (xs ++ ys) := by
  induction xs with
  | nil => intro ys l _ h; exact h
  | cons ev rest ih =>
    intro ys l hx hy
    cases ev with
    | snapshot s =>
        exact ⟨hx.1, ih ys (some s.last_update_id) hx.2 (by simpa [trackSeq, eventSeq] using hy)⟩
    | update u =>
        exact ⟨hx.1, ih ys (some u.last_update_id) hx.2 (by simpa [trackSeq, eventSeq] using hy)⟩
    | trade => cases hx
    | price => cases hx

/-- The buffer drain forwards a contract-respecting stream and leaves
`last_processed_update_id` at the number of the last forwarded event. -/
lemma process_buffer_fwdOk (d : DepthEventDispatcher) :
    fwdOk d.last_processed_update_id ((d.process_buffer).2.map MarketEvent.update) ∧
    (d.process_buffer).1.last_processed_update_id
      = trackSeq d.last_processed_update_id ((d.process_buffer).2.map MarketEvent.update) := by
  cases hl : d.last_processed_update_id with
  | none => simp [DepthEventDispatcher.process_buffer, hl, trackSeq, fwdOk]
  | some l0 =>
      have h := drainLoop_chain l0 d.buffer l0
      constructor
      · simpa [DepthEventDispatcher.process_buffer, hl] using
          chainFrom_fwdOk (drainLoop l0 (l0 + 1) l0 d.buffer).1 l0 h.1
      · simp [DepthEventDispatcher.process_buffer, hl, trackSeq_map_update, h.2]

/-- `process_snapshot` forwards a contract-respecting stream and tracks
`last_processed_update_id` accordingly. -/
lemma process_snapshot_fwdOk (d : DepthEventDispatcher) (s : DepthSnapshot) :
    fwdOk d.last_processed_update_id (d.process_snapshot s).2 ∧
    (d.process_snapshot s).1.last_processed_update_id
      = trackSeq d.last_processed_update_id (d.process_snapshot s).2 := by
  cases hl : d.last_processed_update_id with
  | none =>
      have h2 : (d.process_snapshot s).2 = [MarketEvent.snapshot s] := by
        simp [DepthEventDispatcher.process_snapshot, hl]
      have h1 : (d.process_snapshot s).1.last_processed_update_id = some s.last_update_id := by
        simp [DepthEventDispatcher.process_snapshot, hl]
      rw [h2, h1]
      exact ⟨⟨(fun x hx => nomatch hx), trivial⟩, rfl⟩
  | some l =>
      by_cases hle : s.last_update_id ≤ l
      · have h2 : (d.process_snapshot s).2 = [] := by
          simp [DepthEventDispatcher.process_snapshot, hl, hle]
        have h1 : (d.process_snapshot s).1 = d := by
          simp [DepthEventDispatcher.process_snapshot, hl, hle]
        rw [h2, h1, hl]
        exact ⟨trivial, rfl⟩
      · have h2 : (d.process_snapshot s).2 = [MarketEvent.snapshot s] := by
          simp [DepthEventDispatcher.process_snapshot, hl, hle]
        have h1 : (d.process_snapshot s).1.last_processed_update_id = some s.last_update_id := by
          simp [DepthEventDispatcher.process_snapshot, hl, hle]
        rw [h2, h1]
        exact ⟨⟨(fun x hx => by cases hx; omega), trivial⟩, rfl⟩

/-- One dispatcher iteration forwards a contract-respecting stream and
tracks `last_processed_update_id` accordingly. -/
lemma step_fwdOk (d : DepthEventDispatcher) (ev : MarketEvent) :
    fwdOk d.last_processed_update_id (d.step ev).2 ∧
    (d.step ev).1.last_processed_update_id
      = trackSeq d.last_processed_update_id (d.step ev).2 := by
  cases ev with
  | update u =>
      have h := process_buffer_fwdOk (d.process_update u)
      have hsame : (d.process_update u).last_processed_update_id = d.last_processed_update_id :=
        rfl
      exact ⟨by simpa [DepthEventDispatcher.step, hsame] using h.1,
        by simpa [DepthEventDispatcher.step, hsame] using h.2⟩
  | snapshot s =>
      have h1 := process_snapshot_fwdOk d s
      have h2 := process_buffer_fwdOk (d.process_snapshot s).1
      refine ⟨?_, ?_⟩
      · simp only [DepthEventDispatcher.step]
        exact fwdOk_append _ _ _ h1.1 (by rw [← h1.2]; exact h2.1)
      · simp only [DepthEventDispatcher.step]
        rw [trackSeq_append, ← h1.2, ← h2.2]
  | trade => exact ⟨trivial, rfl⟩
  | price => exact ⟨trivial, rfl⟩

/-- A dispatcher run forwards a contract-respecting stream and ends with
`last_processed_update_id` at the number of the last forwarded event. -/
lemma run_fwdOk (evs : List MarketEvent) : ∀ d : DepthEventDispatcher,
    fwdOk d.last_processed_update_id (d.run evs).2 ∧
    (d.run evs).1.last_processed_update_id
      = trackSeq d.last_processed_update_id (d.run evs).2 := by
  induction evs with
  | nil => intro d; exact ⟨trivial, rfl⟩
  | cons ev rest ih =>
    intro d
    have h1 := step_fwdOk d ev
    have h2 := ih (d.step ev).1
    refine ⟨?_, ?_⟩
    · simp only [DepthEventDispatcher.run]
      exact fwdOk_append _ _ _ h1.1 (by rw [← h1.2]; exact h2.1)
    · simp only [DepthEventDispatcher.run]
      rw [trackSeq_append, ← h1.2, ← h2.2]

lemma fwdOk_updChainOk (out : List MarketEvent) : ∀ l : Option Nat,
    fwdOk l out → updChainOk l out := by
  induction out with
  | nil => intro l _; trivial
  | cons ev rest ih =>
    intro l h
    cases ev with
    | snapshot s => exact ih (some s.last_update_id) h.2
    | update u => exact ⟨h.1, ih (some u.last_update_id) h.2⟩
    | trade => cases h
    | price => cases h

/-- A contract-respecting stream has strictly increasing sequence numbers,
all above the number it starts from. -/
lemma fwdOk_bounds (out : List MarketEvent) : ∀ l : Option Nat, fwdOk l out →
    (∀ x, l = some x → ∀ n ∈ seqsOf out, x < n) ∧
    (seqsOf out).Pairwise (fun a b => a < b) := by
  induction out with
  | nil =>
      intro l _
      exact ⟨(fun x _ n hn => nomatch hn), List.Pairwise.nil⟩
  | cons ev rest ih =>
    intro l h
    cases ev with
    | snapshot s =>
        have hs : seqsOf (MarketEvent.snapshot s :: rest) = s.last_update_id :: seqsOf rest :=
          rfl
        have h2 := ih (some s.last_update_id) h.2
        have hb : ∀ n ∈ seqsOf rest, s.last_update_id < n := h2.1 s.last_update_id rfl
        refine ⟨?_, ?_⟩
        · intro x hx n hn
          rw [hs] at hn
          rcases List.mem_cons.mp hn with hn | hn
          · subst hn; exact h.1 x hx
          · exact lt_trans (h.1 x hx) (hb n hn)
        · rw [hs]
          exact List.Pairwise.cons hb h2.2
    | update u =>
        have hs : seqsOf (MarketEvent.update u :: rest) = u.last_update_id :: seqsOf rest :=
          rfl
        have h2 := ih (some u.last_update_id) h.2
        have hb : ∀ n ∈ seqsOf rest, u.last_update_id < n := h2.1 u.last_update_id rfl
        obtain ⟨x0, hx0, _, hlt⟩ := h.1
        refine ⟨?_, ?_⟩
        · intro x hx n hn
          rw [hs] at hn
          have hxx : x = x0 := by rw [hx] at hx0; exact Option.some_injective _ hx0
          subst hxx
          rcases List.mem_cons.mp hn with hn | hn
          · subst hn; omega
          · have := hb n hn; omega
        · rw [hs]
          exact List.Pairwise.cons hb h2.2
    | trade => cases h
    | price => cases h

/-- C1.  For every update the dispatcher forwards, the window condition
`first_update_id ≤ L + 1 < last_update_id` holds against the sequence number
`L` of the event forwarded directly before it (the value of
`last_processed_update_id` at the moment of forwarding), and afterwards
`last_processed_update_id` tracks the forwarded stream: over any run from a
fresh dispatcher it ends at the sequence number of the last forwarded
event. -/
theorem dispatcher_forwarded_update_window (evs : List MarketEvent) :
    updChainOk none (DepthEventDispatcher.new.run evs).2 ∧
    (DepthEventDispatcher.new.run evs).1.last_processed_update_id
      = trackSeq none (DepthEventDispatcher.new.run evs).2 := by
  have h := run_fwdOk evs DepthEventDispatcher.new
  exact ⟨fwdOk_updChainOk _ _ h.1, h.2⟩

/-- C2.  Whatever the input, the forwarded stream of a fresh dispatcher
begins with a snapshot (so no update precedes the first forwarded snapshot),
and the sequence numbers of all forwarded events are strictly increasing —
in particular no two forwarded events share a `last_update_id`. -/
theorem dispatcher_output_monotone (evs : List MarketEvent) :
    ((DepthEventDispatcher.new.run evs).2 = []
      ∨ ∃ s rest, (DepthEventDispatcher.new.run evs).2 = MarketEvent.snapshot s :: rest) ∧
    (seqsOf (DepthEventDispatcher.new.run evs).2).Pairwise (fun a b => a < b) := by
  have h := (run_fwdOk evs DepthEventDispatcher.new).1
  refine ⟨?_, (fwdOk_bounds _ _ h).2⟩
  cases hout : (DepthEventDispatcher.new.run evs).2 with
  | nil => exact Or.inl rfl
  | cons ev rest =>
      rw [hout] at h
      cases ev with
      | snapshot s => exact Or.inr ⟨s, rest, rfl⟩
      | update u => obtain ⟨x, hx, _⟩ := h.1; cases hx
      | trade => cases h
      | price => cases h

/-- C3.  A buffered update whose `last_update_id` equals `expected`
(`last_processed + 1`) is not forwarded — the strict `expected <
last_update_id` test fails — and the drain leaves it in the buffer and
`last_processed_update_id` unchanged. -/
theorem dispatcher_blocks_at_equal_expected (d : DepthEventDispatcher) (l0 : Nat)
    (u : DepthUpdate) (hl : d.last_processed_update_id = some l0)
    (hmem : u ∈ d.buffer) (hid : u.last_update_id = l0 + 1)
    (hsort : d.buffer.Pairwise (fun a b => a.last_update_id < b.last_update_id)) :
    (d.process_buffer).2 = [] ∧ u ∈ (d.process_buffer).1.buffer ∧
    (d.process_buffer).1.last_processed_update_id = some l0 := by
  have h := drainLoop_blocked l0 d.buffer u hmem hid hsort
  simp only [DepthEventDispatcher.process_buffer, hl]
  exact ⟨h.1, h.2.1, by rw [h.2.2]⟩

theorem dispatcher_blocks_at_equal_expected_witness :
    (DepthEventDispatcher.process_buffer ⟨some 100, [⟨101, 101, [], []⟩]⟩).2 = [] ∧
    (⟨101, 101, [], []⟩ : DepthUpdate)
      ∈ (DepthEventDispatcher.process_buffer ⟨some 100, [⟨101, 101, [], []⟩]⟩).1.buffer ∧
    (DepthEventDispatcher.process_buffer
        ⟨some 100, [⟨101, 101, [], []⟩]⟩).1.last_processed_update_id = some 100 :=
  dispatcher_blocks_at_equal_expected ⟨some 100, [⟨101, 101, [], []⟩]⟩ 100 ⟨101, 101, [], []⟩
    rfl (by simp) rfl (by simp)

/-- C4.  With `last_processed_update_id = some l`, a snapshot whose id is at
most `l` is dropped with the state unchanged and nothing forwarded; a
strictly newer one sets `last_processed_update_id` to its id and is
forwarded; the buffer is untouched either way. -/
theorem dispatcher_snapshot_gate (d : DepthEventDispatcher) (s : DepthSnapshot) (l : Nat)
    (hl : d.last_processed_update_id = some l) :
    (s.last_update_id ≤ l → d.process_snapshot s = (d, [])) ∧
    (l < s.last_update_id →
      d.process_snapshot s
        = ({ last_processed_update_id := some s.last_update_id, buffer := d.buffer },
            [MarketEvent.snapshot s])) ∧
    (d.process_snapshot s).1.buffer = d.buffer := by
  refine ⟨?_, ?_, ?_⟩
  · intro hle
    simp [DepthEventDispatcher.process_snapshot, hl, hle]
  · intro hlt
    have hle : ¬ s.last_update_id ≤ l := by omega
    simp [DepthEventDispatcher.process_snapshot, hl, hle]
  · by_cases hle : s.last_update_id ≤ l <;>
      simp [DepthEventDispatcher.process_snapshot, hl, hle]

theorem dispatcher_snapshot_gate_witness :
    ((50 : Nat) ≤ 100 →
      DepthEventDispatcher.process_snapshot ⟨some 100, []⟩ ⟨50, [], []⟩
        = (⟨some 100, []⟩, [])) ∧
    ((100 : Nat) < 50 →
      DepthEventDispatcher.process_snapshot ⟨some 100, []⟩ ⟨50, [], []⟩
        = ({ last_processed_update_id := some 50, buffer := [] },
            [MarketEvent.snapshot ⟨50, [], []⟩])) ∧
    (DepthEventDispatcher.process_snapshot ⟨some 100, []⟩ ⟨50, [], []⟩).1.buffer = [] :=
  dispatcher_snapshot_gate ⟨some 100, []⟩ ⟨50, [], []⟩ 100 rfl

lemma BPRun.emitted_emit (b : OrderBook) (r : BPRun) : (r.emit b).emitted = b :: r.emitted := by
  cases r <;> rfl

/-- Once a book is held, the processor never panics: snapshots and updates
keep the state initialized. -/
lemma run_some_ok (evs : List MarketEvent) : ∀ b : OrderBook,
    ∃ st l, BookProcessor.run (some b) evs = BPRun.ok st l := by
  induction evs with
  | nil => intro b; exact ⟨some b, [], rfl⟩
  | cons ev rest ih =>
    intro b
    cases ev with
    | snapshot s =>
        obtain ⟨st, l, h⟩ := ih (OrderBook.new s)
        exact ⟨st, OrderBook.new s :: l, by simp [BookProcessor.run, h, BPRun.emit]⟩
    | update u =>
        obtain ⟨st, l, h⟩ := ih (BookProcessor.process_update b u)
        exact ⟨st, BookProcessor.process_update b u :: l,
          by simp [BookProcessor.run, h, BPRun.emit]⟩
    | trade => simpa [BookProcessor.run] using ih b
    | price => simpa [BookProcessor.run] using ih b

/-- C5.  A run of the processor from the uninitialized state aborts — with
nothing emitted — exactly when a depth update precedes every depth snapshot
in its input; in particular an update arriving after some snapshot never
triggers the abort, because from the first snapshot on a book is always
held. -/
theorem bookprocessor_fatal_iff (evs : List MarketEvent) :
    BookProcessor.run none evs = BPRun.fatal [] ↔ updateBeforeFirstSnapshot evs = true := by
  induction evs with
  | nil => simp [BookProcessor.run, updateBeforeFirstSnapshot]
  | cons ev rest ih =>
    cases ev with
    | snapshot s =>
        obtain ⟨st, l, h⟩ := run_some_ok rest (OrderBook.new s)
        simp [BookProcessor.run, h, BPRun.emit, updateBeforeFirstSnapshot]
    | update u => simp [BookProcessor.run, updateBeforeFirstSnapshot]
    | trade => simpa [BookProcessor.run, updateBeforeFirstSnapshot] using ih
    | price => simpa [BookProcessor.run, updateBeforeFirstSnapshot] using ih

theorem bookprocessor_fatal_iff_witness :
    BookProcessor.run none [MarketEvent.update ⟨1, 2, [], []⟩] = BPRun.fatal [] :=
  (bookprocessor_fatal_iff [MarketEvent.update ⟨1, 2, [], []⟩]).mpr rfl

/-- Running further events only appends emissions: an already emitted state
is never revisited or altered by later processing. -/
lemma run_append_emitted (evs : List MarketEvent) :
    ∀ (st : Option OrderBook) (evsB : List MarketEvent) (st2 : Option OrderBook)
      (l : List OrderBook), BookProcessor.run st evs = BPRun.ok st2 l →
    ∃ tail, (BookProcessor.run st (evs ++ evsB)).emitted = l ++ tail := by
  induction evs with
  | nil =>
      intro st evsB st2 l h
      cases h
      exact ⟨(BookProcessor.run st evsB).emitted, by simp⟩
  | cons ev rest ih =>
    intro st evsB st2 l h
    cases ev with
    | snapshot s =>
        simp only [BookProcessor.run] at h
        cases hrec : BookProcessor.run (some (OrderBook.new s)) rest with
        | ok st3 l3 =>
            rw [hrec] at h
            cases h
            obtain ⟨tail, ht⟩ := ih (some (OrderBook.new s)) evsB st2 l3 hrec
            refine ⟨tail, ?_⟩
            simp only [List.cons_append, BookProcessor.run, BPRun.emitted_emit,
              List.append_eq, ht]
        | fatal l3 => rw [hrec] at h; cases h
    | update u =>
        cases hst : st with
        | none => rw [hst] at h; simp only [BookProcessor.run] at h; cases h
        | some b =>
            rw [hst] at h
            simp only [BookProcessor.run] at h
            cases hrec : BookProcessor.run (some (BookProcessor.process_update b u)) rest with
            | ok st3 l3 =>
                rw [hrec] at h
                cases h
                obtain ⟨tail, ht⟩ := ih (some (BookProcessor.process_update b u)) evsB st2 l3
                  hrec
                refine ⟨tail, ?_⟩
                simp only [List.cons_append, BookProcessor.run, BPRun.emitted_emit,
                  List.append_eq, ht]
            | fatal l3 => rw [hrec] at h; cases h
    | trade =>
        simp only [BookProcessor.run] at h ⊢
        exact ih st evsB st2 l h
    | price =>
        simp only [BookProcessor.run] at h ⊢
        exact ih st evsB st2 l h

/-- C6.  An initialized processor handles one depth event by emitting
exactly one state, equal to the updated live book (the emitted value is an
independent copy: by the append lemma below, later events never change the
already emitted list); an update is applied as all its bid deltas, in list
order, followed by all its ask deltas, in list order. -/
theorem bookprocessor_one_emission (b : OrderBook) (ev : MarketEvent)
    (hev : isDepthEvent ev = true) :
    (∃ bNew, BookProcessor.run (some b) [ev] = BPRun.ok (some bNew) [bNew]) ∧
    (∀ u : DepthUpdate, BookProcessor.process_update b u = applyDeltas b (deltaList u)) ∧
    (∀ (st : Option OrderBook) (evsA evsB : List MarketEvent) (st2 : Option OrderBook)
        (l : List OrderBook), BookProcessor.run st evsA = BPRun.ok st2 l →
      ∃ tail, (BookProcessor.run st (evsA ++ evsB)).emitted = l ++ tail) := by
  refine ⟨?_, ?_, fun st evsA evsB => run_append_emitted evsA st evsB⟩
  · cases ev with
    | snapshot s => exact ⟨OrderBook.new s, rfl⟩
    | update u => exact ⟨BookProcessor.process_update b u, rfl⟩
    | trade => cases hev
    | price => cases hev
  · intro u
    simp [BookProcessor.process_update, applyDeltas, deltaList, List.foldl_append,
      List.foldl_map, OrderBook.bid, OrderBook.ask]

theorem bookprocessor_one_emission_witness :
    (BookProcessor.run (some ⟨[], []⟩) [MarketEvent.snapshot ⟨1, [], []⟩]).emitted.length
      = 1 := by
  obtain ⟨bNew, hb⟩ :=
    (bookprocessor_one_emission ⟨[], []⟩ (MarketEvent.snapshot ⟨1, [], []⟩) rfl).1
  rw [hb]
  rfl
/-- Inserting preserves an entry predicate that is insensitive to the value
replacement performed at a matching key, provided the new binding satisfies
it. -/
lemma bmInsert_all (P : PriceKey × F64 → Bool) : ∀ (m : BookMap) (k : PriceKey) (v : F64),
    m.all P = true → (∀ k' v', P (k', v') = true → P (k', v) = true) →
    P (k, v) = true → (bmInsert m k v).all P = true := by
  intro m
  induction m with
  | nil =>
      intro k v _ _ hnew
      simpa [bmInsert] using hnew
  | cons e rest ih =>
    intro k v hm hkeep hnew
    rw [List.all_cons, Bool.and_eq_true] at hm
    by_cases hc : PriceKey.cmp k e.1 = Ordering.eq
    · simp only [bmInsert, if_pos hc, List.all_cons, Bool.and_eq_true]
      exact ⟨hkeep e.1 e.2 hm.1, hm.2⟩
    · simp only [bmInsert, if_neg hc, List.all_cons, Bool.and_eq_true]
      exact ⟨hm.1, ih k v hm.2 hkeep hnew⟩

/-- Removal preserves any entry predicate. -/
lemma bmRemove_all (P : PriceKey × F64 → Bool) : ∀ (m : BookMap) (k : PriceKey),
    m.all P = true → (bmRemove m k).all P = true := by
  intro m
  induction m with
  | nil => intro k h; exact h
  | cons e rest ih =>
    intro k hm
    rw [List.all_cons, Bool.and_eq_true] at hm
    by_cases hc : PriceKey.cmp k e.1 = Ordering.eq
    · simpa [bmRemove, hc] using hm.2
    · simp only [bmRemove, if_neg hc, List.all_cons, Bool.and_eq_true]
      exact ⟨hm.1, ih k hm.2⟩

/-- `apply_update` keeps each key in the map of its own side. -/
lemma apply_update_sides (b : OrderBook) (k : PriceKey) (q : F64)
    (hb : b.sidesOkB = true) : (b.apply_update k q).sidesOkB = true := by
  obtain ⟨hbids, hasks⟩ := Bool.and_eq_true_iff.mp hb
  by_cases hz : F64.ieeeEq q (F64.num 0) = true
  · cases k with
    | Bid p =>
        simp only [OrderBook.apply_update, hz, if_true, OrderBook.sidesOkB,
          Bool.and_eq_true_iff]
        exact ⟨bmRemove_all (fun e => e.1.isBid) b.bids _ hbids, hasks⟩
    | Ask p =>
        simp only [OrderBook.apply_update, hz, if_true, OrderBook.sidesOkB,
          Bool.and_eq_true_iff]
        exact ⟨hbids, bmRemove_all (fun e => !e.1.isBid) b.asks _ hasks⟩
  · rw [Bool.not_eq_true] at hz
    cases k with
    | Bid p =>
        simp only [OrderBook.apply_update, hz, Bool.false_eq_true, if_false,
          OrderBook.sidesOkB, Bool.and_eq_true_iff]
        exact ⟨bmInsert_all (fun e => e.1.isBid) b.bids _ q hbids
          (fun k' v' h => h) rfl, hasks⟩
    | Ask p =>
        simp only [OrderBook.apply_update, hz, Bool.false_eq_true, if_false,
          OrderBook.sidesOkB, Bool.and_eq_true_iff]
        exact ⟨hbids, bmInsert_all (fun e => !e.1.isBid) b.asks _ q hasks
          (fun k' v' h => h) rfl⟩

/-- `apply_update` with a positive-or-zero quantity keeps every stored
quantity strictly positive: a zero removes, anything else inserted is
positive. -/
lemma apply_update_allPos (b : OrderBook) (k : PriceKey) (q : F64)
    (hq : (F64.isPos q || F64.ieeeEq q (F64.num 0)) = true)
    (hb : b.allPosB = true) : (b.apply_update k q).allPosB = true := by
  obtain ⟨hbids, hasks⟩ := Bool.and_eq_true_iff.mp hb
  by_cases hz : F64.ieeeEq q (F64.num 0) = true
  · cases k with
    | Bid p =>
        simp only [OrderBook.apply_update, hz, if_true, OrderBook.allPosB,
          Bool.and_eq_true_iff]
        exact ⟨bmRemove_all (fun e => F64.isPos e.2) b.bids _ hbids, hasks⟩
    | Ask p =>
        simp only [OrderBook.apply_update, hz, if_true, OrderBook.allPosB,
          Bool.and_eq_true_iff]
        exact ⟨hbids, bmRemove_all (fun e => F64.isPos e.2) b.asks _ hasks⟩
  · have hp : F64.isPos q = true := by
      rcases Bool.or_eq_true_iff.mp hq with h | h
      · exact h
      · exact absurd h hz
    rw [Bool.not_eq_true] at hz
    cases k with
    | Bid p =>
        simp only [OrderBook.apply_update, hz, Bool.false_eq_true, if_false,
          OrderBook.allPosB, Bool.and_eq_true_iff]
        exact ⟨bmInsert_all (fun e => F64.isPos e.2) b.bids _ q hbids
          (fun k' v' _ => hp) hp, hasks⟩
    | Ask p =>
        simp only [OrderBook.apply_update, hz, Bool.false_eq_true, if_false,
          OrderBook.allPosB, Bool.and_eq_true_iff]
        exact ⟨hbids, bmInsert_all (fun e => F64.isPos e.2) b.asks _ q hasks
          (fun k' v' _ => hp) hp⟩

/-- Folding insertions of entries produced by a key constructor preserves an
entry predicate when each inserted binding satisfies it. -/
lemma foldl_bmInsert_all (P : PriceKey × F64 → Bool) (f : F64 → PriceKey)
    (l : List DepthEntry) : ∀ m : BookMap, m.all P = true →
    (∀ k' v' e, e ∈ l → P (k', v') = true → P (k', e.quantity) = true) →
    (∀ e, e ∈ l → P (f e.price, e.quantity) = true) →
    (l.foldl (fun m e => bmInsert m (f e.price) e.quantity) m).all P = true := by
  induction l with
  | nil => intro m hm _ _; exact hm
  | cons e rest ih =>
    intro m hm hkeep hnew
    simp only [List.foldl_cons]
    refine ih (bmInsert m (f e.price) e.quantity) ?_ ?_ ?_
    · exact bmInsert_all P m (f e.price) e.quantity hm
        (fun k' v' h => hkeep k' v' e (List.mem_cons_self e rest) h)
        (hnew e (List.mem_cons_self e rest))
    · exact fun k' v' e' he' h => hkeep k' v' e' (List.mem_cons_of_mem e he') h
    · exact fun e' he' => hnew e' (List.mem_cons_of_mem e he')

/-- The book built from a snapshot keeps every key on its own side. -/
lemma new_sides (s : DepthSnapshot) : (OrderBook.new s).sidesOkB = true := by
  simp only [OrderBook.new, OrderBook.sidesOkB, Bool.and_eq_true_iff]
  constructor
  · exact foldl_bmInsert_all (fun e => e.1.isBid) PriceKey.Bid s.bids [] rfl
      (fun k' v' e _ h => h) (fun e _ => rfl)
  · exact foldl_bmInsert_all (fun e => !e.1.isBid) PriceKey.Ask s.asks [] rfl
      (fun k' v' e _ h => h) (fun e _ => rfl)

/-- The book built from a snapshot whose entries are all positive carries
only positive quantities. -/
lemma new_allPos (s : DepthSnapshot) (hs : goodSnapshot s = true) :
    (OrderBook.new s).allPosB = true := by
  obtain ⟨hbids, hasks⟩ := Bool.and_eq_true_iff.mp hs
  rw [List.all_eq_true] at hbids hasks
  simp only [OrderBook.new, OrderBook.allPosB, Bool.and_eq_true_iff]
  constructor
  · exact foldl_bmInsert_all (fun e => F64.isPos e.2) PriceKey.Bid s.bids [] rfl
      (fun k' v' e he _ => hbids e he) (fun e he => hbids e he)
  · exact foldl_bmInsert_all (fun e => F64.isPos e.2) PriceKey.Ask s.asks [] rfl
      (fun k' v' e he _ => hasks e he) (fun e he => hasks e he)

/-- Applying the deltas of an update preserves side separation. -/
lemma foldl_apply_sides (f : F64 → PriceKey) (l : List DepthEntry) : ∀ b : OrderBook,
    b.sidesOkB = true →
    (l.foldl (fun bk e => bk.apply_update (f e.price) e.quantity) b).sidesOkB = true := by
  induction l with
  | nil => intro b hb; exact hb
  | cons e rest ih =>
    intro b hb
    simp only [List.foldl_cons]
    exact ih _ (apply_update_sides b (f e.price) e.quantity hb)

lemma process_update_sides (b : OrderBook) (u : DepthUpdate) (hb : b.sidesOkB = true) :
    (BookProcessor.process_update b u).sidesOkB = true :=
  foldl_apply_sides PriceKey.Ask u.asks _ (foldl_apply_sides PriceKey.Bid u.bids b hb)

/-- Applying positive-or-zero deltas preserves positivity of all stored
quantities. -/
lemma foldl_apply_allPos (f : F64 → PriceKey) (l : List DepthEntry) : ∀ b : OrderBook,
    b.allPosB = true →
    (∀ e ∈ l, (F64.isPos e.quantity || F64.ieeeEq e.quantity (F64.num 0)) = true) →
    (l.foldl (fun bk e => bk.apply_update (f e.price) e.quantity) b).allPosB = true := by
  induction l with
  | nil => intro b hb _; exact hb
  | cons e rest ih =>
    intro b hb hl
    simp only [List.foldl_cons]
    exact ih _ (apply_update_allPos b (f e.price) e.quantity
        (hl e (List.mem_cons_self e rest)) hb)
      (fun e' he' => hl e' (List.mem_cons_of_mem e he'))

lemma process_update_allPos (b : OrderBook) (u : DepthUpdate) (hu : goodUpdate u = true)
    (hb : b.allPosB = true) : (BookProcessor.process_update b u).allPosB = true := by
  rw [goodUpdate, List.all_eq_true] at hu
  exact foldl_apply_allPos PriceKey.Ask u.asks _
    (foldl_apply_allPos PriceKey.Bid u.bids b hb
      (fun e he => hu e (List.mem_append.mpr (Or.inl he))))
    (fun e he => hu e (List.mem_append.mpr (Or.inr he)))

/-- Every state a run emits keeps each key on its own side. -/
lemma run_emitted_sides (evs : List MarketEvent) : ∀ st : Option OrderBook,
    (∀ b0, st = some b0 → b0.sidesOkB = true) →
    ∀ bk ∈ (BookProcessor.run st evs).emitted, bk.sidesOkB = true := by
  induction evs with
  | nil => intro st _ bk hbk; cases hbk
  | cons ev rest ih =>
    intro st hst bk hbk
    cases ev with
    | snapshot s =>
        simp only [BookProcessor.run, BPRun.emitted_emit, List.mem_cons] at hbk
        rcases hbk with h | h
        · subst h; exact new_sides s
        · exact ih (some (OrderBook.new s)) (fun b0 hb0 => by cases hb0; exact new_sides s)
            bk h
    | update u =>
        cases hstv : st with
        | none =>
            rw [hstv] at hbk
            simp only [BookProcessor.run, BPRun.emitted] at hbk
            cases hbk
        | some b =>
            rw [hstv] at hbk
            simp only [BookProcessor.run, BPRun.emitted_emit, List.mem_cons] at hbk
            have hb : b.sidesOkB = true := hst b hstv
            rcases hbk with h | h
            · subst h; exact process_update_sides b u hb
            · exact ih (some (BookProcessor.process_update b u))
                (fun b0 hb0 => by cases hb0; exact process_update_sides b u hb) bk h
    | trade =>
        simp only [BookProcessor.run] at hbk
        exact ih st hst bk hbk
    | price =>
        simp only [BookProcessor.run] at hbk
        exact ih st hst bk hbk

/-- When every snapshot entry is positive and every delta positive-or-zero,
every emitted state carries only positive quantities. -/
lemma run_emitted_allPos (evs : List MarketEvent) : ∀ st : Option OrderBook,
    goodEvents evs = true →
    (∀ b0, st = some b0 → b0.allPosB = true) →
    ∀ bk ∈ (BookProcessor.run st evs).emitted, bk.allPosB = true := by
  induction evs with
  | nil => intro st _ _ bk hbk; cases hbk
  | cons ev rest ih =>
    intro st hg hst bk hbk
    rw [goodEvents, List.all_cons, Bool.and_eq_true] at hg
    have hgrest : goodEvents rest = true := hg.2
    cases ev with
    | snapshot s =>
        have hs : goodSnapshot s = true := hg.1
        simp only [BookProcessor.run, BPRun.emitted_emit, List.mem_cons] at hbk
        rcases hbk with h | h
        · subst h; exact new_allPos s hs
        · exact ih (some (OrderBook.new s)) hgrest
            (fun b0 hb0 => by cases hb0; exact new_allPos s hs) bk h
    | update u =>
        have hu : goodUpdate u = true := hg.1
        cases hstv : st with
        | none =>
            rw [hstv] at hbk
            simp only [BookProcessor.run, BPRun.emitted] at hbk
            cases hbk
        | some b =>
            rw [hstv] at hbk
            simp only [BookProcessor.run, BPRun.emitted_emit, List.mem_cons] at hbk
            have hb : b.allPosB = true := hst b hstv
            rcases hbk with h | h
            · subst h; exact process_update_allPos b u hu hb
            · exact ih (some (BookProcessor.process_update b u)) hgrest
                (fun b0 hb0 => by cases hb0; exact process_update_allPos b u hu hb) bk h
    | trade =>
        simp only [BookProcessor.run] at hbk
        exact ih st hgrest hst bk hbk
    | price =>
        simp only [BookProcessor.run] at hbk
        exact ih st hgrest hst bk hbk

/-- C8 (amended).  Side separation holds for every emitted state
unconditionally; and under the stated quantity conditions on the inputs —
every snapshot entry strictly positive, every update delta strictly positive
or zero — every emitted state carries only strictly positive quantities.
Unconditional positivity fails on the code: snapshot entries are inserted
verbatim (see the counterexample). -/
theorem bookprocessor_emitted_wellformed (evs : List MarketEvent) (bk : OrderBook)
    (hbk : bk ∈ (BookProcessor.run none evs).emitted) :
    bk.sidesOkB = true ∧ (goodEvents evs = true → bk.allPosB = true) :=
  ⟨run_emitted_sides evs none (fun _ h => nomatch h) bk hbk,
    fun hg => run_emitted_allPos evs none hg (fun _ h => nomatch h) bk hbk⟩

theorem bookprocessor_emitted_wellformed_witness :
    (OrderBook.new ⟨1, [⟨F64.num 100, F64.num 10⟩], [⟨F64.num 101, F64.num 5⟩]⟩).sidesOkB
        = true ∧
    (goodEvents
        [MarketEvent.snapshot ⟨1, [⟨F64.num 100, F64.num 10⟩], [⟨F64.num 101, F64.num 5⟩]⟩]
        = true →
      (OrderBook.new ⟨1, [⟨F64.num 100, F64.num 10⟩], [⟨F64.num 101, F64.num 5⟩]⟩).allPosB
        = true) :=
  bookprocessor_emitted_wellformed
    [MarketEvent.snapshot ⟨1, [⟨F64.num 100, F64.num 10⟩], [⟨F64.num 101, F64.num 5⟩]⟩]
    (OrderBook.new ⟨1, [⟨F64.num 100, F64.num 10⟩], [⟨F64.num 101, F64.num 5⟩]⟩)
    (by decide)

/-- C8 counterexample.  A snapshot carrying a zero-quantity bid is inserted
verbatim by `OrderBook::new`, and the processor emits the resulting state:
an emitted state whose quantities are not all strictly positive. -/
theorem bookprocessor_positive_counterexample :
    (BookProcessor.run none [MarketEvent.snapshot ⟨1, [⟨F64.num 1, F64.num 0⟩], []⟩]).emitted
        = [OrderBook.new ⟨1, [⟨F64.num 1, F64.num 0⟩], []⟩] ∧
    (OrderBook.new ⟨1, [⟨F64.num 1, F64.num 0⟩], []⟩).allPosB = false := by
  exact ⟨rfl, by decide⟩

lemma F64.pcmp_nan_right (x : F64) : F64.pcmp x F64.nan = none := by
  cases x <;> rfl

lemma F64.pcmp_nan_left (x : F64) : F64.pcmp F64.nan x = none := by
  cases x <;> rfl

/-- For non-NaN operands `partial_cmp` is the explicit rank comparison. -/
lemma F64.pcmp_eq_some (x y : F64) (hx : x ≠ F64.nan) (hy : y ≠ F64.nan) :
    F64.pcmp x y = some (if x.rankCls < y.rankCls then Ordering.lt
      else if y.rankCls < x.rankCls then Ordering.gt
      else if x.rankVal < y.rankVal then Ordering.lt
      else if y.rankVal < x.rankVal then Ordering.gt
      else Ordering.eq) := by
  cases x <;> cases y <;> simp_all [F64.pcmp]

/-- For non-NaN operands, an `Equal`-collapsed comparison is exactly rank
equality. -/
lemma F64.pcmpEq_iff (x y : F64) (hx : x ≠ F64.nan) (hy : y ≠ F64.nan) :
    (F64.pcmp x y).getD Ordering.eq = Ordering.eq ↔
      x.rankCls = y.rankCls ∧ x.rankVal = y.rankVal := by
  rw [F64.pcmp_eq_some x y hx hy, Option.getD_some]
  constructor
  · intro h
    split_ifs at h with h1 h2 h3 h4
    exact ⟨by omega, le_antisymm (not_lt.mp h4) (not_lt.mp h3)⟩
  · rintro ⟨hc, hv⟩
    have h1 : ¬ x.rankCls < y.rankCls := by omega
    have h2 : ¬ y.rankCls < x.rankCls := by omega
    have h3 : ¬ x.rankVal < y.rankVal := by rw [hv]; exact lt_irrefl _
    have h4 : ¬ y.rankVal < x.rankVal := by rw [hv]; exact lt_irrefl _
    simp [h1, h2, h3, h4]

lemma F64.pcmpEq_self (x : F64) : (F64.pcmp x x).getD Ordering.eq = Ordering.eq := by
  by_cases hx : x = F64.nan
  · subst hx; rfl
  · exact (F64.pcmpEq_iff x x hx hx).mpr ⟨rfl, rfl⟩

lemma cmp_self (k : PriceKey) : PriceKey.cmp k k = Ordering.eq := by
  cases k with
  | Bid p => exact F64.pcmpEq_self p
  | Ask p => exact F64.pcmpEq_self p

/-- Two keys that both collapse to `Equal` against a common same-side,
non-NaN key also collapse to `Equal` against each other. -/
lemma cmp_eq_trans_same_side (k k1 k2 : PriceKey) (hk : k.price ≠ F64.nan)
    (hs1 : k1.isBid = k.isBid) (hs2 : k2.isBid = k.isBid)
    (h1 : PriceKey.cmp k k1 = Ordering.eq) (h2 : PriceKey.cmp k k2 = Ordering.eq) :
    PriceKey.cmp k1 k2 = Ordering.eq := by
  cases k with
  | Bid a =>
      cases k1 with
      | Ask _ => exact absurd hs1 (by simp [PriceKey.isBid])
      | Bid b =>
          cases k2 with
          | Ask _ => exact absurd hs2 (by simp [PriceKey.isBid])
          | Bid c =>
              by_cases hb : b = F64.nan
              · subst hb
                show (F64.pcmp c F64.nan).getD Ordering.eq = Ordering.eq
                rw [F64.pcmp_nan_right]
                rfl
              · by_cases hc : c = F64.nan
                · subst hc
                  show (F64.pcmp F64.nan b).getD Ordering.eq = Ordering.eq
                  rw [F64.pcmp_nan_left]
                  rfl
                · have i1 := (F64.pcmpEq_iff b a hb hk).mp h1
                  have i2 := (F64.pcmpEq_iff c a hc hk).mp h2
                  exact (F64.pcmpEq_iff c b hc hb).mpr
                    ⟨i2.1.trans i1.1.symm, i2.2.trans i1.2.symm⟩
  | Ask a =>
      cases k1 with
      | Bid _ => exact absurd hs1 (by simp [PriceKey.isBid])
      | Ask b =>
          cases k2 with
          | Bid _ => exact absurd hs2 (by simp [PriceKey.isBid])
          | Ask c =>
              by_cases hb : b = F64.nan
              · subst hb
                show (F64.pcmp F64.nan c).getD Ordering.eq = Ordering.eq
                rw [F64.pcmp_nan_left]
                rfl
              · by_cases hc : c = F64.nan
                · subst hc
                  show (F64.pcmp b F64.nan).getD Ordering.eq = Ordering.eq
                  rw [F64.pcmp_nan_right]
                  rfl
                · have i1 := (F64.pcmpEq_iff a b hk hb).mp h1
                  have i2 := (F64.pcmpEq_iff a c hk hc).mp h2
                  exact (F64.pcmpEq_iff b c hb hc).mpr
                    ⟨i1.1.symm.trans i2.1, i1.2.symm.trans i2.2⟩

lemma bmFind_bmInsert (m : BookMap) : ∀ (k : PriceKey) (v : F64),
    bmFind (bmInsert m k v) k = some v := by
  induction m with
  | nil => intro k v; simp [bmInsert, bmFind, cmp_self]
  | cons e rest ih =>
    obtain ⟨k1, w⟩ := e
    intro k v
    by_cases hc : PriceKey.cmp k k1 = Ordering.eq
    · simp [bmInsert, hc, bmFind]
    · simp [bmInsert, hc, bmFind, ih]

lemma bmFind_none_of_all_ne (m : BookMap) (k : PriceKey)
    (h : ∀ e ∈ m, PriceKey.cmp k e.1 ≠ Ordering.eq) : bmFind m k = none := by
  induction m with
  | nil => rfl
  | cons e rest ih =>
    obtain ⟨k1, w⟩ := e
    have hne : PriceKey.cmp k k1 ≠ Ordering.eq := h (k1, w) (List.mem_cons_self _ _)
    simp only [bmFind, if_neg hne]
    exact ih (fun e' he' => h e' (List.mem_cons_of_mem _ he'))

lemma bmRemove_of_find_none (m : BookMap) (k : PriceKey) (h : bmFind m k = none) :
    bmRemove m k = m := by
  induction m with
  | nil => rfl
  | cons e rest ih =>
    obtain ⟨k1, w⟩ := e
    by_cases hc : PriceKey.cmp k k1 = Ordering.eq
    · simp [bmFind, hc] at h
    · simp only [bmFind, if_neg hc] at h
      simp only [bmRemove, if_neg hc]
      rw [ih h]

/-- In a same-side, pairwise-distinct map, removal at a non-NaN key leaves
no binding that still matches the key. -/
lemma bmFind_bmRemove_none (m : BookMap) (k : PriceKey) (hk : k.price ≠ F64.nan)
    (hside : ∀ e ∈ m, e.1.isBid = k.isBid)
    (hpw : m.Pairwise (fun x y => PriceKey.cmp x.1 y.1 ≠ Ordering.eq)) :
    bmFind (bmRemove m k) k = none := by
  induction m with
  | nil => rfl
  | cons e rest ih =>
    rw [List.pairwise_cons] at hpw
    by_cases hc : PriceKey.cmp k e.1 = Ordering.eq
    · simp only [bmRemove, if_pos hc]
      refine bmFind_none_of_all_ne rest k (fun e' he' hc' => ?_)
      exact hpw.1 e' he'
        (cmp_eq_trans_same_side k e.1 e'.1 hk
          (hside e (List.mem_cons_self _ _)) (hside e' (List.mem_cons_of_mem _ he')) hc hc')
    · simp only [bmRemove, if_neg hc, bmFind, if_neg hc]
      exact ih (fun e' he' => hside e' (List.mem_cons_of_mem _ he')) hpw.2

/-- C7 counterexample.  The `-0.0` bit pattern differs from the `0.0`
pattern, yet `apply_update` deletes the level: the code's `quantity == 0.0`
is IEEE equality, under which `-0.0 == 0.0` holds — not a bit-pattern
comparison. -/
theorem apply_negzero_deletes :
    F64.negZero ≠ F64.num 0 ∧
    bmFind ((OrderBook.mk [(PriceKey.Bid (F64.num 1), F64.num 5)] []).apply_update
        (PriceKey.Bid (F64.num 1)) F64.negZero).bids (PriceKey.Bid (F64.num 1)) = none :=
  ⟨by decide, by decide⟩

/-- C7 (amended).  `apply_update` removes the key exactly when the quantity
is zero under IEEE `==` (so `-0.0` also deletes, and NaN never deletes), is
a no-op when such a zero-quantity key is absent, and otherwise stores the
quantity at the key — stated for a well-formed book and a non-NaN price key,
where the `BTreeMap` search is well-behaved. -/
theorem book_zero_quantity_semantics (b : OrderBook) (k : PriceKey) (q : F64)
    (hwf : b.Wf) (hk : k.price ≠ F64.nan) :
    (F64.ieeeEq q (F64.num 0) = true →
      bmFind ((b.apply_update k q).sideOf k) k = none ∧
      (bmFind (b.sideOf k) k = none → b.apply_update k q = b)) ∧
    (F64.ieeeEq q (F64.num 0) = false →
      bmFind ((b.apply_update k q).sideOf k) k = some q) := by
  obtain ⟨hsides, hpwb, hpwa⟩ := hwf
  rw [OrderBook.sidesOkB, Bool.and_eq_true] at hsides
  constructor
  · intro hz
    constructor
    · cases k with
      | Bid p =>
          simp only [OrderBook.apply_update, hz, if_true, OrderBook.sideOf]
          refine bmFind_bmRemove_none b.bids (PriceKey.Bid p) hk ?_ hpwb
          intro e he
          simpa using List.all_eq_true.mp hsides.1 e he
      | Ask p =>
          simp only [OrderBook.apply_update, hz, if_true, OrderBook.sideOf]
          refine bmFind_bmRemove_none b.asks (PriceKey.Ask p) hk ?_ hpwa
          intro e he
          have := List.all_eq_true.mp hsides.2 e he
          simp only [Bool.not_eq_true'] at this
          simpa [PriceKey.isBid] using this
    · intro hfind
      cases k with
      | Bid p =>
          simp only [OrderBook.sideOf] at hfind
          simp only [OrderBook.apply_update, hz, if_true]
          rw [bmRemove_of_find_none b.bids _ hfind]
      | Ask p =>
          simp only [OrderBook.sideOf] at hfind
          simp only [OrderBook.apply_update, hz, if_true]
          rw [bmRemove_of_find_none b.asks _ hfind]
  · intro hnz
    cases k with
    | Bid p =>
        simp only [OrderBook.apply_update, hnz, Bool.false_eq_true, if_false, OrderBook.sideOf]
        exact bmFind_bmInsert b.bids _ q
    | Ask p =>
        simp only [OrderBook.apply_update, hnz, Bool.false_eq_true, if_false, OrderBook.sideOf]
        exact bmFind_bmInsert b.asks _ q

theorem book_zero_quantity_semantics_witness :
    (F64.ieeeEq (F64.num 0) (F64.num 0) = true →
      bmFind (((OrderBook.mk [(PriceKey.Bid (F64.num 2), F64.num 7)] []).apply_update
          (PriceKey.Bid (F64.num 2)) (F64.num 0)).sideOf (PriceKey.Bid (F64.num 2)))
          (PriceKey.Bid (F64.num 2)) = none ∧
      (bmFind ((OrderBook.mk [(PriceKey.Bid (F64.num 2), F64.num 7)] []).sideOf
            (PriceKey.Bid (F64.num 2))) (PriceKey.Bid (F64.num 2)) = none →
        (OrderBook.mk [(PriceKey.Bid (F64.num 2), F64.num 7)] []).apply_update
            (PriceKey.Bid (F64.num 2)) (F64.num 0)
          = OrderBook.mk [(PriceKey.Bid (F64.num 2), F64.num 7)] [])) ∧
    (F64.ieeeEq (F64.num 0) (F64.num 0) = false →
      bmFind (((OrderBook.mk [(PriceKey.Bid (F64.num 2), F64.num 7)] []).apply_update
          (PriceKey.Bid (F64.num 2)) (F64.num 0)).sideOf (PriceKey.Bid (F64.num 2)))
          (PriceKey.Bid (F64.num 2)) = some (F64.num 0)) :=
  book_zero_quantity_semantics (OrderBook.mk [(PriceKey.Bid (F64.num 2), F64.num 7)] [])
    (PriceKey.Bid (F64.num 2)) (F64.num 0) ⟨by decide, by simp, by simp⟩ (by decide)

/-- C9.  The total order on `PriceKey` collapses every incomparable pair to
`Equal`: a bid against an ask, in either order, and any pair involving a NaN
price, because `Ord::cmp` maps the `None` of `partial_cmp` to
`Ordering::Equal`. -/
theorem pricekey_cmp_collapses :
    (∀ a b : F64, PriceKey.cmp (PriceKey.Bid a) (PriceKey.Ask b) = Ordering.eq ∧
      PriceKey.cmp (PriceKey.Ask b) (PriceKey.Bid a) = Ordering.eq) ∧
    (∀ k k' : PriceKey, (k.price = F64.nan ∨ k'.price = F64.nan) →
      PriceKey.cmp k k' = Ordering.eq) := by
  refine ⟨fun a b => ⟨rfl, rfl⟩, ?_⟩
  intro k k' h
  cases k with
  | Bid p =>
      cases k' with
      | Bid p' =>
          rcases h with h | h
          · have hp : p = F64.nan := h
            subst hp
            show (F64.pcmp p' F64.nan).getD Ordering.eq = Ordering.eq
            rw [F64.pcmp_nan_right]
            rfl
          · have hp : p' = F64.nan := h
            subst hp
            show (F64.pcmp F64.nan p).getD Ordering.eq = Ordering.eq
            rw [F64.pcmp_nan_left]
            rfl
      | Ask p' => rfl
  | Ask p =>
      cases k' with
      | Bid p' => rfl
      | Ask p' =>
          rcases h with h | h
          · have hp : p = F64.nan := h
            subst hp
            show (F64.pcmp F64.nan p').getD Ordering.eq = Ordering.eq
            rw [F64.pcmp_nan_left]
            rfl
          · have hp : p' = F64.nan := h
            subst hp
            show (F64.pcmp p F64.nan).getD Ordering.eq = Ordering.eq
            rw [F64.pcmp_nan_right]
            rfl

theorem pricekey_cmp_collapses_witness :
    PriceKey.cmp (PriceKey.Bid F64.nan) (PriceKey.Bid (F64.num 1)) = Ordering.eq :=
  pricekey_cmp_collapses.2 (PriceKey.Bid F64.nan) (PriceKey.Bid (F64.num 1)) (Or.inl rfl)

/-- C10.  Any key with a quantity that is not IEEE-zero — strictly negative
quantities included — is stored at that key by `apply_update`: the code only
tests `quantity == 0.0` and never checks a sign. -/
theorem apply_update_stores_nonzero (b : OrderBook) (k : PriceKey) (q : F64)
    (hq : F64.ieeeEq q (F64.num 0) = false) :
    bmFind ((b.apply_update k q).sideOf k) k = some q := by
  cases k with
  | Bid p =>
      simp only [OrderBook.apply_update, hq, Bool.false_eq_true, if_false, OrderBook.sideOf]
      exact bmFind_bmInsert b.bids _ q
  | Ask p =>
      simp only [OrderBook.apply_update, hq, Bool.false_eq_true, if_false, OrderBook.sideOf]
      exact bmFind_bmInsert b.asks _ q

theorem apply_update_stores_nonzero_witness :
    bmFind (((OrderBook.mk [] []).apply_update (PriceKey.Bid (F64.num 1))
        (F64.num (-5))).sideOf (PriceKey.Bid (F64.num 1))) (PriceKey.Bid (F64.num 1))
      = some (F64.num (-5)) :=
  apply_update_stores_nonzero (OrderBook.mk [] []) (PriceKey.Bid (F64.num 1))
    (F64.num (-5)) (by decide)
